import Mathlib

/-!
Shallow embedding of the Bloom filter in `src/main.cpp`.

Strings are modelled as lists of `char` values: each element of a
`List Int` is the (possibly negative, since `char` is signed on the
target platform) integer value the C++ `char` is promoted to.
`unsigned long long` arithmetic is modelled on `Int` with an explicit
`% 2 ^ 64`; `Int.emod` with a positive modulus returns a value in
`[0, modulus)`, exactly like C++ unsigned `%` after the implicit
conversion of the signed operand.
-/

/-- Wrap modulus of `unsigned long long` (64-bit) arithmetic: `2 ^ 64`. -/
def U64 : Int := 18446744073709551616

/-- Loop of `polynomial_hash` (src/main.cpp lines 21-31).  The C++ body is
`hash = (hash + (c - 'a' + 1) * p_pow) % m; p_pow = (p_pow * p) % m;`
where `hash` is `unsigned long long` and `(c - 'a' + 1) * p_pow` is a
signed `long long`: the addition converts the signed operand to
`unsigned long long` (wraparound mod `2^64`, modelled by the inner
`% U64`), and then `% m` is unsigned (the operands are in
`(-2^63, 2^64)`, so one `emod U64` captures the conversion exactly). -/
def polyAux (p m : Int) : List Int → Int → Int → Int
  | [], hash, _ => hash
  | c :: cs, hash, p_pow =>
      polyAux p m cs (((hash + (c - 97 + 1) * p_pow) % U64) % m) ((p_pow * p) % m)

/-- Embedding of `polynomial_hash` (src/main.cpp lines 21-31):
`hash = 0`, `p_pow = 1`, then the loop of `polyAux` over the string. -/
def polynomial_hash (s : List Int) (p m : Int) : Int :=
  polyAux p m s 0 1

/-- Embedding of `djb2` (src/main.cpp lines 45-53): `hash = 5381`, then
`hash = ((hash << 5) + hash) + c` in `unsigned long long`; `hash << 5`
is `hash * 32` mod `2^64`, and `c` is converted mod `2^64`, so a single
outer `% U64` models the step exactly. -/
def djb2 (s : List Int) : Int :=
  s.foldl (fun hash c => (hash * 32 + hash + c) % U64) 5381

/-- Embedding of `sdbm` (src/main.cpp lines 65-73): `hash = 0`, then
`hash = c + (hash << 6) + (hash << 16) - hash` in `unsigned long long`;
the shifts are `* 64` and `* 65536` mod `2^64`. -/
def sdbm (s : List Int) : Int :=
  s.foldl (fun hash c => (c + hash * 64 + hash * 65536 - hash) % U64) 0

/-- Capacity of the `bitset<1000001> bits` member: `bits.size()`. -/
def bitsetCapacity : Int := 1000001

/-- State of a `BloomFilter` object (src/main.cpp lines 75-169): the
data members `p`, `m`, `size`, `filename` and the bitset `bits`,
modelled as the set of indices of the bits that are `true`. -/
@[ext]
structure BloomFilter where
  p : Int
  m : Int
  size : Int
  filename : List Int
  bits : Finset Int
deriving DecidableEq

/-- Embedding of `BloomFilter::add` (src/main.cpp lines 104-112). -/
def BloomFilter.add (bf : BloomFilter) (s : List Int) : BloomFilter :=
  let hash := polynomial_hash s bf.p bf.m
  let hash2 := djb2 s % bf.m
  let hash3 := sdbm s % bf.m
  { bf with
    bits := insert (hash3 % bitsetCapacity)
              (insert (hash2 % bitsetCapacity)
                (insert (hash % bitsetCapacity) bf.bits)) }

/-- Embedding of `BloomFilter::contains` (src/main.cpp lines 114-121). -/
def BloomFilter.contains (bf : BloomFilter) (s : List Int) : Bool :=
  let hash := polynomial_hash s bf.p bf.m
  let hash2 := djb2 s % bf.m
  let hash3 := sdbm s % bf.m
  decide (hash % bitsetCapacity ∈ bf.bits) &&
    decide (hash2 % bitsetCapacity ∈ bf.bits) &&
    decide (hash3 % bitsetCapacity ∈ bf.bits)

/-- One iteration of the constructor loop (src/main.cpp lines 91-95):
`add(line); size++;`. -/
def BloomFilter.loadLine (bf : BloomFilter) (line : List Int) : BloomFilter :=
  let bf2 := bf.add line
  { bf2 with size := bf2.size + 1 }

/-- Embedding of the constructor `BloomFilter(string filename)`
(src/main.cpp lines 85-102).  A file is `Option (List (List Int))`:
`none` when `ifstream` cannot open it, `some lines` otherwise.  The
returned `Bool` is whether the "Unable to open file" error was reported
on `cerr`. -/
def mkBloomFilter (filename : List Int) (file : Option (List (List Int))) :
    BloomFilter × Bool :=
  let init : BloomFilter :=
    { p := 31, m := 1000000009, size := 0, filename := filename, bits := ∅ }
  match file with
  | some lines => (lines.foldl BloomFilter.loadLine init, false)
  | none => (init, true)

/-- Observable outcome of `BloomFilter::test` (src/main.cpp lines
123-166): the counters `positives` and `negatives`, the collected
`maliciousUrls`, the per-line "Checking ..." report (`checkLog`, one
`(line, result)` pair per line, in order), and whether the
"Unable to open file" error was reported. -/
structure TestResult where
  positives : Int
  negatives : Int
  maliciousUrls : List (List Int)
  checkLog : List (List Int × Bool)
  errorReported : Bool
deriving DecidableEq

/-- One iteration of the `test` loop (src/main.cpp lines 132-142),
threading the filter state through the call to `contains`. -/
def BloomFilter.testStep (st : BloomFilter × TestResult) (line : List Int) :
    BloomFilter × TestResult :=
  let result := st.1.contains line
  (st.1,
    { st.2 with
      positives := st.2.positives + (if result then 1 else 0),
      negatives := st.2.negatives + (if result then 0 else 1),
      maliciousUrls := st.2.maliciousUrls ++ (if result then [line] else []),
      checkLog := st.2.checkLog ++ [(line, result)] })

/-- Embedding of `BloomFilter::test` (src/main.cpp lines 123-166):
returns the filter state after the call together with the observable
test outcome. -/
def BloomFilter.test (bf : BloomFilter) (file : Option (List (List Int))) :
    BloomFilter × TestResult :=
  match file with
  | some lines =>
      lines.foldl BloomFilter.testStep
        (bf, { positives := 0, negatives := 0, maliciousUrls := [],
               checkLog := [], errorReported := false })
  | none =>
      (bf, { positives := 0, negatives := 0, maliciousUrls := [],
             checkLog := [], errorReported := true })

/-- A sequence of direct `add` calls, used to state monotonicity,
idempotence and order-independence of `add`. -/
def addSeq (bf : BloomFilter) (l : List (List Int)) : BloomFilter :=
  l.foldl BloomFilter.add bf

/-- Specification-side polynomial hash, from the spec words: the sum
over positions `i` of `(char_code - 'a' + 1) * p ^ i` (the argument `i`
is the position of the head of the remaining list), reduced modulo `m`
by the caller. -/
def poly_spec_sum (p : Int) : List Int → Nat → Int
  | [], _ => 0
  | c :: cs, i => (c - 97 + 1) * p ^ i + poly_spec_sum p cs (i + 1)

/-- Specification-side DJB2, from the spec words: seed 5381, step
`new_hash = old_hash * 33 + char_code`, modulo `2^64`. -/
def djb2_spec (s : List Int) : Int :=
  s.foldl (fun hash c => (hash * 33 + c) % U64) 5381

/-- Specification-side SDBM, from the spec words: seed 0, step
`new_hash = char_code + (old_hash << 6) + (old_hash << 16) - old_hash`,
modulo `2^64` (shifts written as multiplications). -/
def sdbm_spec (s : List Int) : Int :=
  s.foldl (fun hash c => (c + hash * 64 + hash * 65536 - hash) % U64) 0

/-- A concrete filter used by witness theorems: the result of
constructing from an unopenable file named "x" (char code 120). -/
def bfEx : BloomFilter := (mkBloomFilter [120] none).1

/-! ## Helper lemmas -/

theorem add_bits_mem {x : Int} (bf : BloomFilter) (s : List Int)
    (h : x ∈ bf.bits) : x ∈ (bf.add s).bits := by
  simp only [BloomFilter.add]
  exact Finset.mem_insert_of_mem (Finset.mem_insert_of_mem (Finset.mem_insert_of_mem h))

theorem contains_mono (bf : BloomFilter) (s t : List Int)
    (h : bf.contains s = true) : (bf.add t).contains s = true := by
  simp only [BloomFilter.contains, Bool.and_eq_true, decide_eq_true_eq] at h ⊢
  exact ⟨⟨add_bits_mem bf t h.1.1, add_bits_mem bf t h.1.2⟩, add_bits_mem bf t h.2⟩

theorem contains_add_self (bf : BloomFilter) (s : List Int) :
    (bf.add s).contains s = true := by
  simp [BloomFilter.contains, BloomFilter.add, Finset.mem_insert]

theorem contains_addSeq (s : List Int) :
    ∀ (ts : List (List Int)) (bf : BloomFilter),
      bf.contains s = true → (addSeq bf ts).contains s = true := by
  intro ts
  induction ts with
  | nil => intro bf h; exact h
  | cons t ts ih => intro bf h; exact ih (bf.add t) (contains_mono bf s t h)

/-! ## Claim theorems (first batch) -/

/-- C1: no false negatives with monotonic persistence: immediately after
`add s` the filter reports `contains s = true`, and it still does after
any further sequence of `add` calls with arbitrary other strings. -/
theorem bloom_no_false_negatives (bf : BloomFilter) (s : List Int)
    (ts : List (List Int)) :
    (bf.add s).contains s = true ∧
    (addSeq (bf.add s) ts).contains s = true :=
  ⟨contains_add_self bf s, contains_addSeq s ts (bf.add s) (contains_add_self bf s)⟩

/-- C5: on a filter whose bit array is all-false (no `add` has occurred),
`contains` returns false for every non-empty string. -/
theorem empty_filter_negative (bf : BloomFilter) (s : List Int)
    (hbits : bf.bits = ∅) (hs : s ≠ []) : bf.contains s = false := by
  simp [BloomFilter.contains, hbits]

/-- Witness for C5 at the concrete filter built from an unopenable file
and the string "a". -/
theorem empty_filter_negative_witness :
    bfEx.bits = ∅ ∧ ([97] : List Int) ≠ [] ∧ bfEx.contains [97] = false :=
  ⟨rfl, by decide, empty_filter_negative bfEx [97] rfl (by decide)⟩

/-- C2: `add s` sets exactly the bits at the three indices
`polynomial_hash s p m % capacity`, `djb2 s % m % capacity` and
`sdbm s % m % capacity` (as a set union, so collisions set fewer bits)
and changes nothing else, and `contains s` is true iff all three of
those bits are set; it is total on all strings, the empty one included. -/
theorem add_contains_index_protocol (bf : BloomFilter) (s : List Int)
    (hp : bf.p = 31) (hm : bf.m = 1000000009) :
    (bf.add s).bits = bf.bits ∪
      {polynomial_hash s 31 1000000009 % bitsetCapacity,
       djb2 s % 1000000009 % bitsetCapacity,
       sdbm s % 1000000009 % bitsetCapacity} ∧
    (bf.contains s = true ↔
      (polynomial_hash s 31 1000000009 % bitsetCapacity ∈ bf.bits ∧
       djb2 s % 1000000009 % bitsetCapacity ∈ bf.bits ∧
       sdbm s % 1000000009 % bitsetCapacity ∈ bf.bits)) := by
  constructor
  · ext x
    simp [BloomFilter.add, hp, hm, Finset.mem_insert, Finset.mem_union]
    tauto
  · simp [BloomFilter.contains, hp, hm, and_assoc]

/-- Witness for C2 at the concrete empty filter and the string "a". -/
theorem add_contains_index_protocol_witness :
    bfEx.p = 31 ∧ bfEx.m = 1000000009 ∧
    ((bfEx.add [97]).bits = bfEx.bits ∪
      {polynomial_hash [97] 31 1000000009 % bitsetCapacity,
       djb2 [97] % 1000000009 % bitsetCapacity,
       sdbm [97] % 1000000009 % bitsetCapacity} ∧
    (bfEx.contains [97] = true ↔
      (polynomial_hash [97] 31 1000000009 % bitsetCapacity ∈ bfEx.bits ∧
       djb2 [97] % 1000000009 % bitsetCapacity ∈ bfEx.bits ∧
       sdbm [97] % 1000000009 % bitsetCapacity ∈ bfEx.bits))) :=
  ⟨rfl, rfl, add_contains_index_protocol bfEx [97] rfl rfl⟩

/-- C4: `djb2` agrees with the specified fold from 5381 with step
`hash * 33 + char`, and `sdbm` with the specified fold from 0 with step
`char + (hash << 6) + (hash << 16) - hash`, both modulo `2^64`. -/
theorem djb2_sdbm_recurrences (s : List Int) :
    djb2 s = djb2_spec s ∧ sdbm s = sdbm_spec s := by
  constructor
  · have hstep : (fun hash c : Int => (hash * 32 + hash + c) % U64) =
        fun hash c : Int => (hash * 33 + c) % U64 := by
      funext hash c
      rw [show hash * 32 + hash + c = hash * 33 + c from by ring]
    simp only [djb2, djb2_spec, hstep]
  · rfl

theorem bloomAdd_comm (bf : BloomFilter) (a b : List Int) :
    (bf.add a).add b = (bf.add b).add a := by
  apply BloomFilter.ext <;> simp only [BloomFilter.add]
  ext x
  simp only [Finset.mem_insert]
  tauto

theorem bloomAdd_idem (bf : BloomFilter) (s : List Int) :
    (bf.add s).add s = bf.add s := by
  apply BloomFilter.ext <;> simp only [BloomFilter.add]
  ext x
  simp only [Finset.mem_insert]
  tauto

theorem addSeq_perm {l1 l2 : List (List Int)} (h : l1.Perm l2) :
    ∀ bf : BloomFilter, addSeq bf l1 = addSeq bf l2 := by
  induction h with
  | nil => intro bf; rfl
  | cons x h ih =>
      intro bf
      show addSeq (bf.add x) _ = addSeq (bf.add x) _
      exact ih (bf.add x)
  | swap x y l =>
      intro bf
      show List.foldl BloomFilter.add ((bf.add y).add x) l =
        List.foldl BloomFilter.add ((bf.add x).add y) l
      rw [bloomAdd_comm]
  | trans h1 h2 ih1 ih2 =>
      intro bf
      exact (ih1 bf).trans (ih2 bf)

theorem addSeq_replicate (s : List Int) :
    ∀ (n : Nat) (bf : BloomFilter),
      addSeq bf (List.replicate (n + 1) s) = bf.add s := by
  intro n
  induction n with
  | zero => intro bf; rfl
  | succ k ih =>
      intro bf
      have h1 : addSeq bf (List.replicate (k + 1 + 1) s) =
          addSeq (bf.add s) (List.replicate (k + 1) s) := rfl
      rw [h1, ih, bloomAdd_idem]

/-- C6: the bit array depends only on the set of strings added: adding
the same string any positive number of times yields the bit array of a
single add (idempotence), and permuting the insertion order leaves the
final set of true bits unchanged (order independence). -/
theorem add_idempotent_order_independent :
    (∀ (bf : BloomFilter) (s : List Int) (n : Nat),
        (addSeq bf (List.replicate (n + 1) s)).bits = (bf.add s).bits) ∧
    (∀ (bf : BloomFilter) (l1 l2 : List (List Int)), l1.Perm l2 →
        (addSeq bf l1).bits = (addSeq bf l2).bits) :=
  ⟨fun bf s n => by rw [addSeq_replicate s n bf],
   fun bf l1 l2 h => by rw [addSeq_perm h bf]⟩

/-- Witness for C6: three adds of "a" equal one, and inserting
["a","b"] in either order gives the same bits. -/
theorem add_idempotent_order_independent_witness :
    (addSeq bfEx (List.replicate (2 + 1) [97])).bits = (bfEx.add [97]).bits ∧
    (([[97], [98]] : List (List Int)).Perm [[98], [97]] ∧
      (addSeq bfEx [[97], [98]]).bits = (addSeq bfEx [[98], [97]]).bits) :=
  ⟨add_idempotent_order_independent.1 bfEx [97] 2,
   List.Perm.swap [98] [97] [],
   add_idempotent_order_independent.2 bfEx [[97], [98]] [[98], [97]]
     (List.Perm.swap [98] [97] [])⟩

/-- C9: the empty string collides: its polynomial hash and its SDBM
hash are both 0, its DJB2 hash is 5381, so `add ""` sets exactly the
two distinct bits 0 and 5381. -/
theorem empty_string_two_bits :
    polynomial_hash [] 31 1000000009 = 0 ∧ sdbm [] = 0 ∧
    djb2 [] % 1000000009 % bitsetCapacity = 5381 ∧ (0 : Int) ≠ 5381 ∧
    ∀ bf : BloomFilter, bf.m = 1000000009 →
      (bf.add []).bits = bf.bits ∪ {0, 5381} := by
  refine ⟨rfl, rfl, by decide, by decide, ?_⟩
  intro bf hm
  ext x
  simp only [BloomFilter.add, polynomial_hash, polyAux, djb2, sdbm, List.foldl_nil, hm]
  norm_num [bitsetCapacity, Finset.mem_insert, Finset.mem_union]
  tauto

/-- Witness for C9 at the concrete empty filter. -/
theorem empty_string_two_bits_witness :
    bfEx.m = 1000000009 ∧ (bfEx.add []).bits = bfEx.bits ∪ {0, 5381} :=
  ⟨rfl, empty_string_two_bits.2.2.2.2 bfEx rfl⟩

theorem testStep_foldl (bf : BloomFilter) :
    ∀ (lines : List (List Int)) (r : TestResult),
      lines.foldl BloomFilter.testStep (bf, r) =
        (bf,
         { positives := r.positives + ((lines.filter fun l => bf.contains l).length : Int),
           negatives := r.negatives + ((lines.filter fun l => !(bf.contains l)).length : Int),
           maliciousUrls := r.maliciousUrls ++ lines.filter (fun l => bf.contains l),
           checkLog := r.checkLog ++ lines.map (fun l => (l, bf.contains l)),
           errorReported := r.errorReported }) := by
  intro lines
  induction lines with
  | nil => intro r; simp
  | cons l ls ih =>
      intro r
      rw [List.foldl_cons, show BloomFilter.testStep (bf, r) l =
        (bf, { positives := r.positives + (if bf.contains l then 1 else 0),
               negatives := r.negatives + (if bf.contains l then 0 else 1),
               maliciousUrls := r.maliciousUrls ++ (if bf.contains l then [l] else []),
               checkLog := r.checkLog ++ [(l, bf.contains l)],
               errorReported := r.errorReported }) from rfl, ih]
      by_cases h : bf.contains l = true <;>
        simp [h, List.filter_cons, Prod.ext_iff, TestResult.mk.injEq,
          List.append_assoc] <;>
        push_cast <;> ring

/-- C7: `test` over an opened file of candidate lines calls `contains`
on each line in order and reports (line, result) pairs, counts the true
and false results, collects exactly the matched lines in order, and
leaves the filter state (its bit array included) unchanged. -/
theorem bulk_test_pure_partition (bf : BloomFilter) (lines : List (List Int)) :
    bf.test (some lines) =
      (bf,
       { positives := ((lines.filter fun l => bf.contains l).length : Int),
         negatives := ((lines.filter fun l => !(bf.contains l)).length : Int),
         maliciousUrls := lines.filter (fun l => bf.contains l),
         checkLog := lines.map (fun l => (l, bf.contains l)),
         errorReported := false }) := by
  have h := testStep_foldl bf lines
    { positives := 0, negatives := 0, maliciousUrls := [],
      checkLog := [], errorReported := false }
  simpa [BloomFilter.test] using h

/-- C8: when the input file cannot be opened, the failure is reported
(the `true`/`errorReported` flag is the "Unable to open file" message)
and the filter state is untouched: construction yields the empty filter
with insertion count 0, and `test` returns the filter unchanged with
zero counts and no collected lines. -/
theorem failed_open_atomicity :
    (∀ fn : List Int, mkBloomFilter fn none =
      ({ p := 31, m := 1000000009, size := 0, filename := fn, bits := ∅ }, true)) ∧
    (∀ bf : BloomFilter, bf.test none =
      (bf, { positives := 0, negatives := 0, maliciousUrls := [],
             checkLog := [], errorReported := true })) :=
  ⟨fun fn => rfl, fun bf => rfl⟩

theorem loadLine_foldl_size :
    ∀ (lines : List (List Int)) (bf : BloomFilter),
      (lines.foldl BloomFilter.loadLine bf).size = bf.size + (lines.length : Int) := by
  intro lines
  induction lines with
  | nil => intro bf; simp
  | cons l ls ih =>
      intro bf
      rw [List.foldl_cons, ih]
      show (bf.add l).size + 1 + ((ls.length : Int)) = bf.size + _
      push_cast
      show bf.size + 1 + ((ls.length : Int)) = bf.size + ((ls.length : Int) + 1)
      ring

/-- C10: `add` changes only the bit array, leaving the `size` counter,
the hash parameters `p` and `m`, and the stored filename unchanged;
`test` never changes the filter; and the insertion count is set only by
file-based construction, where it equals the number of lines read. -/
theorem add_frame_size_only_in_ctor :
    (∀ (bf : BloomFilter) (s : List Int),
        (bf.add s).size = bf.size ∧ (bf.add s).p = bf.p ∧
        (bf.add s).m = bf.m ∧ (bf.add s).filename = bf.filename) ∧
    (∀ (bf : BloomFilter) (file : Option (List (List Int))), (bf.test file).1 = bf) ∧
    (∀ (fn : List Int) (lines : List (List Int)),
        ((mkBloomFilter fn (some lines)).1).size = (lines.length : Int)) := by
  refine ⟨fun bf s => ⟨rfl, rfl, rfl, rfl⟩, ?_, ?_⟩
  · intro bf file
    cases file with
    | none => rfl
    | some lines =>
        have h := testStep_foldl bf lines
          { positives := 0, negatives := 0, maliciousUrls := [],
            checkLog := [], errorReported := false }
        simp [BloomFilter.test, h]
  · intro fn lines
    simp [mkBloomFilter, loadLine_foldl_size]

theorem polyAux_bounds (p m : Int) (hm : 0 < m) :
    ∀ (cs : List Int) (hash pw : Int), 0 ≤ hash → hash < m →
      0 ≤ polyAux p m cs hash pw ∧ polyAux p m cs hash pw < m := by
  intro cs
  induction cs with
  | nil => intro hash pw h0 h1; exact ⟨h0, h1⟩
  | cons c cs ih =>
      intro hash pw h0 h1
      exact ih _ _ (Int.emod_nonneg _ (ne_of_gt hm)) (Int.emod_lt_of_pos _ hm)

theorem poly_spec_sum_succ (p : Int) :
    ∀ (cs : List Int) (i : Nat),
      poly_spec_sum p cs (i + 1) = p * poly_spec_sum p cs i := by
  intro cs
  induction cs with
  | nil => intro i; simp [poly_spec_sum]
  | cons c cs ih =>
      intro i
      simp only [poly_spec_sum]
      rw [ih (i + 1)]
      ring

theorem polyAux_eq_spec :
    ∀ (cs : List Int), (∀ c ∈ cs, 96 ≤ c ∧ c ≤ 127) →
      ∀ (hash pw : Int), 0 ≤ hash → hash < 1000000009 →
        0 ≤ pw → pw < 1000000009 →
        polyAux 31 1000000009 cs hash pw =
          (hash + pw * poly_spec_sum 31 cs 0) % 1000000009 := by
  intro cs
  induction cs with
  | nil =>
      intro _ hash pw h0 h1 _ _
      simp only [polyAux, poly_spec_sum]
      rw [mul_zero, add_zero, Int.emod_eq_of_lt h0 h1]
  | cons c cs ih =>
      intro hc hash pw h0 h1 h2 h3
      have hcc : 96 ≤ c ∧ c ≤ 127 := hc c (List.mem_cons_self c cs)
      have hcs : ∀ x ∈ cs, 96 ≤ x ∧ x ≤ 127 :=
        fun x hx => hc x (List.mem_cons_of_mem c hx)
      have hnn : 0 ≤ hash + (c - 97 + 1) * pw :=
        add_nonneg h0 (mul_nonneg (by omega) h2)
      have hle : (c - 97 + 1) * pw ≤ 31 * 1000000009 :=
        mul_le_mul (by omega) h3.le h2 (by norm_num)
      have hub : hash + (c - 97 + 1) * pw < U64 := by
        simp only [U64]
        linarith
      have hwrap : (hash + (c - 97 + 1) * pw) % U64 = hash + (c - 97 + 1) * pw :=
        Int.emod_eq_of_lt hnn hub
      simp only [polyAux, hwrap]
      rw [ih hcs _ _ (Int.emod_nonneg _ (by norm_num)) (Int.emod_lt_of_pos _ (by norm_num))
            (Int.emod_nonneg _ (by norm_num)) (Int.emod_lt_of_pos _ (by norm_num))]
      have e1 : (hash + (c - 97 + 1) * pw) % 1000000009 ≡
          hash + (c - 97 + 1) * pw [ZMOD 1000000009] :=
        Int.emod_emod_of_dvd _ dvd_rfl
      have e2 : (pw * 31) % 1000000009 ≡ pw * 31 [ZMOD 1000000009] :=
        Int.emod_emod_of_dvd _ dvd_rfl
      have e3 := e1.add (e2.mul_right (poly_spec_sum 31 cs 0))
      have hrw : hash + pw * poly_spec_sum 31 (c :: cs) 0 =
          hash + (c - 97 + 1) * pw + pw * 31 * poly_spec_sum 31 cs 0 := by
        simp only [poly_spec_sum, poly_spec_sum_succ]
        ring
      rw [hrw]
      exact e3

/-- C3 counterexample: on the one-character string "." (char code 46,
whose `(c - 'a' + 1)` contribution is negative), the value the code
computes differs from the mathematical polynomial sum reduced mod m,
because the code wraps the negative intermediate modulo 2^64 before
reducing mod m. -/
theorem poly_hash_spec_mismatch_at_dot :
    polynomial_hash [46] 31 1000000009 = 688856403 ∧
    poly_spec_sum 31 [46] 0 % 1000000009 = 999999959 ∧
    polynomial_hash [46] 31 1000000009 ≠ poly_spec_sum 31 [46] 0 % 1000000009 := by
  decide

/-- C3 (amended): the returned value always lies in `[0, m)`, and for
strings all of whose character codes lie in `[96, 127]` (so every
`(c - 'a' + 1)` contribution is non-negative and no 64-bit wraparound
of a negative intermediate occurs) the result equals the sum over
positions `i` of `(char_code - 'a' + 1) * p ^ i` reduced modulo `m`,
with `p = 31` and `m = 1000000009`. -/
theorem poly_hash_u64_amended :
    (∀ s : List Int, 0 ≤ polynomial_hash s 31 1000000009 ∧
        polynomial_hash s 31 1000000009 < 1000000009) ∧
    (∀ s : List Int, (∀ c ∈ s, 96 ≤ c ∧ c ≤ 127) →
        polynomial_hash s 31 1000000009 = poly_spec_sum 31 s 0 % 1000000009) := by
  constructor
  · intro s
    exact polyAux_bounds 31 1000000009 (by norm_num) s 0 1 le_rfl (by norm_num)
  · intro s hs
    have h := polyAux_eq_spec s hs 0 1 le_rfl (by norm_num) (by norm_num) (by norm_num)
    simpa [polynomial_hash] using h

/-- Witness for the amended C3 at the concrete strings "." and "ab". -/
theorem poly_hash_u64_amended_witness :
    (0 ≤ polynomial_hash [46] 31 1000000009 ∧
      polynomial_hash [46] 31 1000000009 < 1000000009) ∧
    (∀ c ∈ ([97, 98] : List Int), 96 ≤ c ∧ c ≤ 127) ∧
    polynomial_hash [97, 98] 31 1000000009 = poly_spec_sum 31 [97, 98] 0 % 1000000009 :=
  ⟨poly_hash_u64_amended.1 [46], by decide,
   poly_hash_u64_amended.2 [97, 98] (by decide)⟩
